import Mathlib

/-!
Verification of the qnap_decrypt OpenSSL-envelope decryption pipeline.

Shallow embedding conventions:
* Bytes are `Nat` (values < 256 in actual data; `Nat.xor` models Go byte xor).
* Byte strings are `List Nat`; file paths are Lean `String`s.
* The AES-256 block cipher lives in Go's external crypto/aes package, so the
  block decryption permutation is passed to the embedded functions as an
  explicit argument of type key -> block -> block, mirroring how the Go code
  threads the cipher.Block value obtained from aes.NewCipher(key).
* Streams are modelled block-aligned: the Go code reads the ciphertext 16
  bytes at a time through adapters whose chunk boundaries are multiples of
  the block size for every input the pipeline produces.
-/

namespace QnapDecrypt

/-- Byte-wise xor of two byte strings, as Go's loop over a block does. -/
def xorBytes (a b : List Nat) : List Nat := List.zipWith Nat.xor a b

/-- Fuel-based worker for chunksOf; structural recursion on the fuel keeps
the definition kernel-reducible.  Any fuel at least the list length gives
the chunk decomposition. -/
def chunksOfAux (m : Nat) : Nat → List Nat → List (List Nat)
  | 0, _ => []
  | _+1, [] => []
  | fuel+1, a :: l => ((a :: l).take (m+1)) :: chunksOfAux m fuel ((a :: l).drop (m+1))

/-- Splits a byte string into consecutive chunks of size m+1 (the successor
makes every chunk nonempty); the final chunk may be shorter. -/
def chunksOf (m : Nat) (l : List Nat) : List (List Nat) := chunksOfAux m l.length l

/-- source constant SALT_SIZE (part_000). -/
def SALT_SIZE : Nat := 8

/-- The bytes of the source constant SALT_STR ("Salted__", part_000). -/
def SALT_STR_BYTES : List Nat := [83, 97, 108, 116, 101, 100, 95, 95]

/-- source constant AES_KEY_LENGTH (part_002 line 15). -/
def AES_KEY_LENGTH : Nat := 256

/-- source constant BYTE_SIZE (part_002 line 16). -/
def BYTE_SIZE : Nat := 8

/-- source constant BLOCK_SIZE (part_002 line 17). -/
def BLOCK_SIZE : Nat := 16

/-- source constant ITERATIONS (part_002 line 18). -/
def ITERATIONS : Nat := 1

/-- PKCS5Trimming (part_002 lines 90-93, identical in lib.go and part_003):
reads the final byte as the padding length and slices it off.  The Go code
performs no validation: `encrypt[:len(encrypt)-int(padding)]` panics with a
slice-bounds error when the padding byte exceeds the slice length (and when
the slice is empty); `none` models that runtime panic.  A padding byte of 0
is accepted and trims nothing. -/
def PKCS5Trimming (encrypt : List Nat) : Option (List Nat) :=
  match encrypt.getLast? with
  | some padding =>
      if padding ≤ encrypt.length then some (encrypt.take (encrypt.length - padding))
      else none
  | none => none

/-- IsOpensslEncrypted (part_002 lines 21-27): header must be longer than
2*SALT_SIZE and start with the magic bytes. -/
def IsOpensslEncrypted (buf : List Nat) : Bool :=
  if buf.length ≤ 2 * SALT_SIZE then false
  else buf.take SALT_SIZE == SALT_STR_BYTES

section ChunkLemmas

theorem chunksOfAux_fuel_irrel (m : Nat) :
    ∀ (f1 : Nat) (l : List Nat), l.length ≤ f1 → ∀ f2, l.length ≤ f2 →
      chunksOfAux m f1 l = chunksOfAux m f2 l := by
  intro f1
  induction f1 with
  | zero =>
      intro l hl f2 _
      have : l = [] := List.length_eq_zero.mp (Nat.le_zero.mp hl)
      subst this
      cases f2 <;> rfl
  | succ f ih =>
      intro l hl f2 hl2
      cases l with
      | nil => cases f2 <;> rfl
      | cons a l =>
          cases f2 with
          | zero => simp at hl2
          | succ f2' =>
              simp only [chunksOfAux]
              congr 1
              apply ih
              · simp at hl ⊢; omega
              · simp at hl2 ⊢; omega

theorem chunksOf_nil (m : Nat) : chunksOf m [] = [] := rfl

theorem chunksOf_ne_nil (m : Nat) (l : List Nat) (h : l ≠ []) : chunksOf m l ≠ [] := by
  cases l with
  | nil => exact absurd rfl h
  | cons a l => simp [chunksOf, chunksOfAux]

theorem chunksOf_cons_general (m : Nat) (l : List Nat) (h : l ≠ []) :
    chunksOf m l = l.take (m+1) :: chunksOf m (l.drop (m+1)) := by
  cases l with
  | nil => exact absurd rfl h
  | cons a l =>
      show chunksOfAux m (l.length + 1) (a :: l) = _
      simp only [chunksOfAux]
      congr 1
      apply chunksOfAux_fuel_irrel
      · simp
      · simp

/-- Flattening the chunks recovers the original byte string. -/
theorem flatten_chunksOf (m : Nat) (l : List Nat) : (chunksOf m l).flatten = l := by
  suffices h : ∀ fuel (l : List Nat), l.length ≤ fuel → (chunksOfAux m fuel l).flatten = l by
    exact h l.length l le_rfl
  intro fuel
  induction fuel with
  | zero =>
      intro l hl
      have : l = [] := List.length_eq_zero.mp (Nat.le_zero.mp hl)
      subst this; rfl
  | succ f ih =>
      intro l hl
      cases l with
      | nil => rfl
      | cons a l =>
          simp only [chunksOfAux, List.flatten_cons]
          rw [ih _ (by simp at hl ⊢; omega)]
          exact List.take_append_drop ..

/-- Prepending one full chunk shifts chunksOf by one chunk. -/
theorem chunksOf_append (m : Nat) (b rest : List Nat) (hb : b.length = m + 1) :
    chunksOf m (b ++ rest) = b :: chunksOf m rest := by
  have hbne : b ≠ [] := by
    intro h; rw [h] at hb; simp at hb
  have h1 : (b ++ rest) ≠ [] := by
    intro h
    exact hbne (List.append_eq_nil.mp h).1
  rw [chunksOf_cons_general m _ h1]
  congr 1
  · rw [List.take_append_eq_append_take, hb]
    simp [List.take_of_length_le (le_of_eq hb)]
  · rw [List.drop_append_eq_append_drop, hb]
    simp [List.drop_of_length_le (le_of_eq hb)]

/-- Every chunk of a byte string whose length is divisible by m+1 has
exactly m+1 bytes. -/
theorem length_of_mem_chunksOf (m : Nat) (l : List Nat)
    (hdvd : (m + 1) ∣ l.length) :
    ∀ c ∈ chunksOf m l, c.length = m + 1 := by
  suffices h : ∀ fuel (l : List Nat), l.length ≤ fuel → (m + 1) ∣ l.length →
      ∀ c ∈ chunksOf m l, c.length = m + 1 by
    exact h l.length l le_rfl hdvd
  intro fuel
  induction fuel with
  | zero =>
      intro l hl _
      have : l = [] := List.length_eq_zero.mp (Nat.le_zero.mp hl)
      subst this; simp [chunksOf_nil]
  | succ f ih =>
      intro l hl hd c hc
      cases l with
      | nil => simp [chunksOf_nil] at hc
      | cons a l =>
          rw [chunksOf_cons_general m (a :: l) (by simp)] at hc
          obtain ⟨k, hk⟩ := hd
          have hlen : (a :: l).length = (m + 1) * k := hk
          have hkpos : 0 < k := by
            rcases Nat.eq_zero_or_pos k with h0 | h0
            · rw [h0, Nat.mul_zero] at hlen; simp at hlen
            · exact h0
          have hge : m + 1 ≤ (a :: l).length := by
            rw [hlen]
            calc m + 1 = (m+1) * 1 := by ring
            _ ≤ (m+1) * k := Nat.mul_le_mul_left _ hkpos
          rcases List.mem_cons.mp hc with hc | hc
          · rw [hc]; exact List.length_take_of_le hge
          · refine ih _ ?_ ?_ c hc
            · simp at hl ⊢; omega
            · refine ⟨k - 1, ?_⟩
              rw [List.length_drop, hlen]
              cases k with
              | zero => omega
              | succ k' =>
                  rw [Nat.mul_succ, Nat.succ_sub_one]
                  omega

/-- chunksOf of a flattened list of full chunks is the original list. -/
theorem chunksOf_flatten (m : Nat) (q : List (List Nat))
    (hq : ∀ c ∈ q, c.length = m + 1) :
    chunksOf m q.flatten = q := by
  induction q with
  | nil => rfl
  | cons b q ih =>
      rw [List.flatten_cons, chunksOf_append m b _ (hq b (by simp))]
      rw [ih (fun c hc => hq c (by simp [hc]))]

end ChunkLemmas

section XorLemmas

theorem xorBytes_length (a b : List Nat) : (xorBytes a b).length = min a.length b.length :=
  List.length_zipWith ..

theorem xorBytes_cancel (a b : List Nat) (h : a.length = b.length) :
    xorBytes (xorBytes a b) b = a := by
  induction a generalizing b with
  | nil => simp [xorBytes]
  | cons x a ih =>
      cases b with
      | nil => simp at h
      | cons y b =>
          simp only [xorBytes, List.zipWith_cons_cons]
          congr 1
          · exact Nat.xor_cancel_right y x
          · exact ih b (by simpa using h)

end XorLemmas

section MD5

/-- 32-bit modulus used to model Go's uint32 arithmetic. -/
def U32 : Nat := 4294967296

/-- 32-bit left rotation. -/
def rotl32 (x s : Nat) : Nat := (((x % U32) <<< s) ||| ((x % U32) >>> (32 - s))) % U32

/-- RFC 1321 sine-derived constant table used by Go's crypto/md5. -/
def md5K : List Nat :=
  [0xd76aa478, 0xe8c7b756, 0x242070db, 0xc1bdceee, 0xf57c0faf, 0x4787c62a, 0xa8304613, 0xfd469501,
   0x698098d8, 0x8b44f7af, 0xffff5bb1, 0x895cd7be, 0x6b901122, 0xfd987193, 0xa679438e, 0x49b40821,
   0xf61e2562, 0xc040b340, 0x265e5a51, 0xe9b6c7aa, 0xd62f105d, 0x02441453, 0xd8a1e681, 0xe7d3fbc8,
   0x21e1cde6, 0xc33707d6, 0xf4d50d87, 0x455a14ed, 0xa9e3e905, 0xfcefa3f8, 0x676f02d9, 0x8d2a4c8a,
   0xfffa3942, 0x8771f681, 0x6d9d6122, 0xfde5380c, 0xa4beea44, 0x4bdecfa9, 0xf6bb4b60, 0xbebfbc70,
   0x289b7ec6, 0xeaa127fa, 0xd4ef3085, 0x04881d05, 0xd9d4d039, 0xe6db99e5, 0x1fa27cf8, 0xc4ac5665,
   0xf4292244, 0x432aff97, 0xab9423a7, 0xfc93a039, 0x655b59c3, 0x8f0ccc92, 0xffeff47d, 0x85845dd1,
   0x6fa87e4f, 0xfe2ce6e0, 0xa3014314, 0x4e0811a1, 0xf7537e82, 0xbd3af235, 0x2ad7d2bb, 0xeb86d391]

/-- RFC 1321 per-round shift amounts. -/
def md5S : List Nat :=
  [7, 12, 17, 22, 7, 12, 17, 22, 7, 12, 17, 22, 7, 12, 17, 22,
   5, 9, 14, 20, 5, 9, 14, 20, 5, 9, 14, 20, 5, 9, 14, 20,
   4, 11, 16, 23, 4, 11, 16, 23, 4, 11, 16, 23, 4, 11, 16, 23,
   6, 10, 15, 21, 6, 10, 15, 21, 6, 10, 15, 21, 6, 10, 15, 21]

/-- One MD5 round: combines the state with message word and table entries. -/
def md5Round (m : List Nat) (st : Nat × Nat × Nat × Nat) (i : Nat) : Nat × Nat × Nat × Nat :=
  let a := st.1
  let b := st.2.1
  let c := st.2.2.1
  let d := st.2.2.2
  let f :=
    if i < 16 then (b &&& c) ||| ((0xffffffff ^^^ b) &&& d)
    else if i < 32 then (d &&& b) ||| ((0xffffffff ^^^ d) &&& c)
    else if i < 48 then b ^^^ c ^^^ d
    else c ^^^ (b ||| (0xffffffff ^^^ d))
  let g :=
    if i < 16 then i
    else if i < 32 then (5 * i + 1) % 16
    else if i < 48 then (3 * i + 5) % 16
    else (7 * i) % 16
  let f2 := (f + a + md5K.getD i 0 + m.getD g 0) % U32
  (d, (b + rotl32 f2 (md5S.getD i 0)) % U32, b, c)

/-- Reads a 4-byte little-endian word. -/
def leWord (b : List Nat) : Nat :=
  b.getD 0 0 + 256 * b.getD 1 0 + 65536 * b.getD 2 0 + 16777216 * b.getD 3 0

/-- Serializes a 32-bit word to 4 little-endian bytes. -/
def wordLE (w : Nat) : List Nat :=
  [w % 256, w / 256 % 256, w / 65536 % 256, w / 16777216 % 256]

/-- Processes one 64-byte chunk of the padded message. -/
def md5Chunk (st : Nat × Nat × Nat × Nat) (chunk : List Nat) : Nat × Nat × Nat × Nat :=
  let m := (chunksOf 3 chunk).map leWord
  let r := (List.range 64).foldl (md5Round m) st
  ((st.1 + r.1) % U32, (st.2.1 + r.2.1) % U32, (st.2.2.1 + r.2.2.1) % U32, (st.2.2.2 + r.2.2.2) % U32)

/-- RFC 1321 message padding: a 0x80 byte, zeros to 56 mod 64, then the
original bit length as 8 little-endian bytes. -/
def md5Pad (msg : List Nat) : List Nat :=
  let padZeros := (119 - msg.length % 64) % 64
  let bitLen := (8 * msg.length) % 18446744073709551616
  msg ++ [0x80] ++ List.replicate padZeros 0 ++
    [bitLen % 256, bitLen / 256 % 256, bitLen / 65536 % 256, bitLen / 16777216 % 256,
     bitLen / 4294967296 % 256, bitLen / 1099511627776 % 256,
     bitLen / 281474976710656 % 256, bitLen / 72057594037927936 % 256]

/-- The MD5 digest of a byte string (models Go's crypto/md5, the digest the
source passes to the key-derivation routine). -/
def md5 (msg : List Nat) : List Nat :=
  let st := (chunksOf 63 (md5Pad msg)).foldl md5Chunk
    (0x67452301, 0xefcdab89, 0x98badcfe, 0x10325476)
  wordLE st.1 ++ wordLE st.2.1 ++ wordLE st.2.2.1 ++ wordLE st.2.2.2

theorem wordLE_length (w : Nat) : (wordLE w).length = 4 := rfl

/-- MD5 always produces a 16-byte digest. -/
theorem md5_length (msg : List Nat) : (md5 msg).length = 16 := by
  simp [md5, wordLE_length]

end MD5

section KeyDerivation

/-- Iterated application of the digest (the iteration count of
EVP_BytesToKey; the source always passes 1). -/
def hashIter (hash : List Nat → List Nat) : Nat → List Nat → List Nat
  | 0, x => x
  | n+1, x => hash (hashIter hash n x)

/-- The D_1, D_2, ... digest stream of EVP_BytesToKey: each round digests
previous-digest ++ data ++ salt and appends.  Generates `rounds` rounds,
which callers pick large enough to cover keyLen+ivLen bytes. -/
def evpStream (hash : List Nat → List Nat) (data salt : List Nat) (iter : Nat) :
    Nat → List Nat → List Nat
  | 0, _ => []
  | n+1, prev =>
      let d := hashIter hash iter (prev ++ data ++ salt)
      d ++ evpStream hash data salt iter n d

/-- Modelled from the spec: EVP_BytesToKey lives in the external library
github.com/scritch007/go-tools/crypto and is not under src/.  Per spec
section 4.1 (OpenSSL legacy EVP_BytesToKey): digests D_i = H(D_{i-1} ||
data || salt) are concatenated until keyLen+ivLen bytes are available; the
first keyLen bytes are the key and the next ivLen bytes the IV.  The
argument order (keyLen, ivLen, hash, salt, data, iterations) mirrors the Go
call site in part_002 line 49. -/
def EVP_BytesToKey (keyLen ivLen : Nat) (hash : List Nat → List Nat)
    (salt data : List Nat) (iterations : Nat) : List Nat × List Nat :=
  let s := evpStream hash data salt iterations (keyLen + ivLen) []
  (s.take keyLen, (s.drop keyLen).take ivLen)

/-- The key/IV derivation exactly as the source invokes it (part_002 lines
47-49): EVP_BytesToKey(AES_KEY_LENGTH/BYTE_SIZE, BLOCK_SIZE, md5, salt,
password, ITERATIONS). -/
def deriveKeyIv (password salt : List Nat) : List Nat × List Nat :=
  EVP_BytesToKey (AES_KEY_LENGTH / BYTE_SIZE) BLOCK_SIZE md5 salt password ITERATIONS

/-- The spec's own wording of the derivation (spec section 4.1), as a second
definition for the refinement check: let D_0 be empty, compute D_i =
MD5(D_{i-1} || password || salt) and concatenate until at least
keyLen+ivLen bytes are available, then split.  The fuel argument bounds the
loop; keyLen+ivLen rounds always suffice for a nonempty digest. -/
def deriveChainSpec (password salt : List Nat) (need : Nat) :
    Nat → List Nat → List Nat → List Nat
  | 0, _, acc => acc
  | fuel+1, prev, acc =>
      if need ≤ acc.length then acc
      else
        let d := md5 (prev ++ password ++ salt)
        deriveChainSpec password salt need fuel d (acc ++ d)

/-- Spec-side derive(password, salt, keyLen, ivLen). -/
def deriveSpec (password salt : List Nat) (keyLen ivLen : Nat) : List Nat × List Nat :=
  let s := deriveChainSpec password salt (keyLen + ivLen) (keyLen + ivLen) [] []
  (s.take keyLen, (s.drop keyLen).take ivLen)

end KeyDerivation

section DecryptStream

/-- Outcomes of the streaming decryptor.  readError models a non-EOF error
returned by input.Read; padPanic models the Go runtime panic raised by
PKCS5Trimming when the padding byte exceeds the block length. -/
inductive DecErr
  | readMagic
  | notOpenssl
  | readSalt
  | readError
  | padPanic
deriving DecidableEq, Repr

/-- The decryption loop of DecryptStreamToStream in part_002/part_003 (the
variant with the `first` flag).  Arguments: the block-decryption
permutation, the remaining cipher blocks, the first-iteration flag, the CBC
chaining block (IV, then previous cipher block), the held decrypted block
(outBuffer), and whether the stream ends in a non-EOF read error.  Returns
the list of out.Write payloads, one entry per read event (empty on the
first block, which is only held) plus the final EOF write, and the error
outcome. -/
def decryptLoop (dec : List Nat → List Nat) :
    List (List Nat) → Bool → List Nat → List Nat → Bool → List (List Nat) × Option DecErr
  | [], _, _, held, readErr =>
      if readErr then ([], some .readError)
      else
        match PKCS5Trimming held with
        | some t => ([t], none)
        | none => ([], some .padPanic)
  | c :: rest, first, prev, held, readErr =>
      let r := decryptLoop dec rest false c (xorBytes (dec c) prev) readErr
      ((if first then [] else held) :: r.1, r.2)

/-- DecryptStreamToStream (part_002 lines 57-88 and part_003, the variant
with the `first` flag that defers the very first block).  The cipher.Block
obtained from aes.NewCipher(key) is passed as the abstract permutation
`dec`; inBuffer/outBuffer start as the 16-byte zero slices make creates.
The input stream is modelled as the list of its 16-byte cipher blocks plus
a flag saying whether it ends in a non-EOF read error. -/
def DecryptStreamToStream (dec : List Nat → List Nat) (iv : List Nat)
    (blocks : List (List Nat)) (readErr : Bool) : List (List Nat) × Option DecErr :=
  decryptLoop dec blocks true iv (List.replicate BLOCK_SIZE 0) readErr

/-- The decryption loop of DecryptStreamToStream in src/lib/lib.go (lines
57-83): same loop but with no `first` flag, so the zero-initialized
outBuffer is written on the very first iteration. -/
def decryptLoopLibgo (dec : List Nat → List Nat) :
    List (List Nat) → List Nat → List Nat → Bool → List (List Nat) × Option DecErr
  | [], _, held, readErr =>
      if readErr then ([], some .readError)
      else
        match PKCS5Trimming held with
        | some t => ([t], none)
        | none => ([], some .padPanic)
  | c :: rest, prev, held, readErr =>
      let r := decryptLoopLibgo dec rest c (xorBytes (dec c) prev) readErr
      (held :: r.1, r.2)

/-- DecryptStreamToStream as src/lib/lib.go defines it (no `first` flag). -/
def DecryptStreamToStreamLibgo (dec : List Nat → List Nat) (iv : List Nat)
    (blocks : List (List Nat)) (readErr : Bool) : List (List Nat) × Option DecErr :=
  decryptLoopLibgo dec blocks iv (List.replicate BLOCK_SIZE 0) readErr

/-- DecipherOpensslReader (part_002 lines 31-55).  The channel-backed
reader (NewChannelReader, code not under src/) is modelled from the spec
(section 4.2 Chunk-to-Stream Reader) as the flat byte stream it delivers;
reads are block-aligned for every stream the pipeline produces (chunks of
bufferSize, a multiple of 16).  The Go code ignores short-read counts, so a
magic/salt read shorter than 8 bytes leaves the zero initialization of the
destination slice in place; the model reproduces that.  The AES-256 block
decryption permutation family (key -> block -> block) stands for
aes.NewCipher inside DecryptStreamToStream.  Returns the out.Write payload
list (the Stream-to-Chunk Writer of the spec re-chunks them downstream)
and the error outcome. -/
def DecipherOpensslReader (dfam : List Nat → List Nat → List Nat)
    (password : List Nat) (input : List Nat) : List (List Nat) × Option DecErr :=
  if input.length = 0 then ([], some .readMagic)
  else
    let saltMagic := input.take SALT_SIZE ++ List.replicate (SALT_SIZE - input.length) 0
    if saltMagic ≠ SALT_STR_BYTES then ([], some .notOpenssl)
    else if input.length ≤ SALT_SIZE then ([], some .readSalt)
    else
      let salt := (input.drop SALT_SIZE).take SALT_SIZE ++
        List.replicate (SALT_SIZE - (input.length - SALT_SIZE)) 0
      let ki := EVP_BytesToKey (AES_KEY_LENGTH / BYTE_SIZE) BLOCK_SIZE md5 salt password ITERATIONS
      DecryptStreamToStream (dfam ki.1) ki.2 (chunksOf (BLOCK_SIZE - 1) (input.drop (2 * SALT_SIZE))) false

end DecryptStream

section Envelope

/-- CBC encryption of a block sequence: each plaintext block is xored with
the previous ciphertext block (initially the IV) and passed through the
block cipher.  This is the reference producer side of the round-trip
property; the repository only decrypts. -/
def cbcEnc (enc : List Nat → List Nat) : List Nat → List (List Nat) → List (List Nat)
  | _, [] => []
  | prev, p :: ps =>
      let c := enc (xorBytes p prev)
      c :: cbcEnc enc c ps

/-- PKCS#5 padding: appends p copies of p where p = 16 - (len mod 16), then
splits into 16-byte blocks. -/
def padBlocks (pt : List Nat) : List (List Nat) :=
  chunksOf (BLOCK_SIZE - 1) (pt ++ List.replicate (BLOCK_SIZE - pt.length % BLOCK_SIZE) (BLOCK_SIZE - pt.length % BLOCK_SIZE))

/-- Reference OpenSSL envelope producer per spec section 6: the ASCII magic
Salted__, the 8-byte salt, then the AES-256-CBC ciphertext of the
PKCS#5-padded plaintext under the key/IV derived from (password, salt).
The block encryption permutation family is the counterpart of the
decryption family handed to DecipherOpensslReader. -/
def opensslEnvelope (efam : List Nat → List Nat → List Nat)
    (password salt pt : List Nat) : List Nat :=
  let ki := EVP_BytesToKey (AES_KEY_LENGTH / BYTE_SIZE) BLOCK_SIZE md5 salt password ITERATIONS
  SALT_STR_BYTES ++ salt ++ (cbcEnc (efam ki.1) ki.2 (padBlocks pt)).flatten

end Envelope

section RoundTrip

/-- The write events the deferred-padding loop produces once it is past the
first block: every held block verbatim, except the last, which is trimmed
(or panics). -/
def expectedEvents : List (List Nat) → List (List Nat) × Option DecErr
  | [] => ([], none)
  | [b] =>
      match PKCS5Trimming b with
      | some t => ([t], none)
      | none => ([], some .padPanic)
  | b :: c :: q =>
      let r := expectedEvents (c :: q)
      (b :: r.1, r.2)

theorem expectedEvents_concat (q : List (List Nat)) (b t : List Nat)
    (h : PKCS5Trimming b = some t) :
    expectedEvents (q ++ [b]) = (q ++ [t], none) := by
  induction q with
  | nil => simp [expectedEvents, h]
  | cons x q ih =>
      cases q with
      | nil => simp [expectedEvents, h] at ih ⊢
      | cons y q => simp [expectedEvents] at ih ⊢; rw [ih]; simp

theorem cbcEnc_mem_length (enc : List Nat → List Nat)
    (hlen : ∀ b, b.length = BLOCK_SIZE → (enc b).length = BLOCK_SIZE) :
    ∀ (ps : List (List Nat)) (prev : List Nat), (∀ p ∈ ps, p.length = BLOCK_SIZE) →
      prev.length = BLOCK_SIZE → ∀ c ∈ cbcEnc enc prev ps, c.length = BLOCK_SIZE := by
  intro ps
  induction ps with
  | nil => intro prev _ _ c hc; simp [cbcEnc] at hc
  | cons p ps ih =>
      intro prev hps hprev c hc
      have hp : p.length = BLOCK_SIZE := hps p (by simp)
      have hxor : (xorBytes p prev).length = BLOCK_SIZE := by
        rw [xorBytes_length, hp, hprev]; simp
      have henc : (enc (xorBytes p prev)).length = BLOCK_SIZE := hlen _ hxor
      simp only [cbcEnc] at hc
      rcases List.mem_cons.mp hc with hc | hc
      · rw [hc]; exact henc
      · exact ih _ (fun x hx => hps x (by simp [hx])) henc c hc

/-- Core invariant of the deferred-padding loop: decrypting a CBC-encrypted
block sequence from the non-first state replays the held block and then
each plaintext block, ending with the trimmed final block. -/
theorem decryptLoop_cbc (enc dec : List Nat → List Nat)
    (hinv : ∀ b, b.length = BLOCK_SIZE → dec (enc b) = b)
    (hlen : ∀ b, b.length = BLOCK_SIZE → (enc b).length = BLOCK_SIZE) :
    ∀ (ps : List (List Nat)) (prev held : List Nat),
      (∀ p ∈ ps, p.length = BLOCK_SIZE) → prev.length = BLOCK_SIZE →
      decryptLoop dec (cbcEnc enc prev ps) false prev held false = expectedEvents (held :: ps) := by
  intro ps
  induction ps with
  | nil =>
      intro prev held _ _
      simp only [cbcEnc, decryptLoop, expectedEvents]
      cases PKCS5Trimming held <;> simp
  | cons p ps ih =>
      intro prev held hps hprev
      have hp : p.length = BLOCK_SIZE := hps p (by simp)
      have hxor : (xorBytes p prev).length = BLOCK_SIZE := by
        rw [xorBytes_length, hp, hprev]; simp
      have henc : (enc (xorBytes p prev)).length = BLOCK_SIZE := hlen _ hxor
      simp only [cbcEnc, decryptLoop]
      have hdec : dec (enc (xorBytes p prev)) = xorBytes p prev := hinv _ hxor
      have hcancel : xorBytes (xorBytes p prev) prev = p :=
        xorBytes_cancel p prev (by rw [hp, hprev])
      rw [hdec, hcancel, ih _ p (fun x hx => hps x (by simp [hx])) henc]
      cases ps with
      | nil => simp [expectedEvents]
      | cons y q => simp [expectedEvents]

/-- The padded plaintext, before splitting into blocks. -/
def paddedBytes (pt : List Nat) : List Nat :=
  pt ++ List.replicate (BLOCK_SIZE - pt.length % BLOCK_SIZE) (BLOCK_SIZE - pt.length % BLOCK_SIZE)

theorem paddedBytes_length_dvd (pt : List Nat) : BLOCK_SIZE ∣ (paddedBytes pt).length := by
  simp only [paddedBytes, List.length_append, List.length_replicate, BLOCK_SIZE]
  omega

theorem padBlocks_eq_chunks (pt : List Nat) :
    padBlocks pt = chunksOf (BLOCK_SIZE - 1) (paddedBytes pt) := rfl

theorem padBlocks_mem_length (pt : List Nat) :
    ∀ c ∈ padBlocks pt, c.length = BLOCK_SIZE := by
  have h := length_of_mem_chunksOf (BLOCK_SIZE - 1) (paddedBytes pt)
    (by have := paddedBytes_length_dvd pt; simpa [BLOCK_SIZE] using this)
  simpa [BLOCK_SIZE, padBlocks_eq_chunks] using h

theorem padBlocks_flatten (pt : List Nat) : (padBlocks pt).flatten = paddedBytes pt :=
  flatten_chunksOf ..

theorem padBlocks_ne_nil (pt : List Nat) : padBlocks pt ≠ [] := by
  apply chunksOf_ne_nil
  simp only [paddedBytes, BLOCK_SIZE]
  intro h
  have := congrArg List.length h
  simp at this
  omega

/-- Splitting the padded plaintext: the last block ends in the padding byte
p, trimming it succeeds, and the leading blocks plus the trimmed last block
reassemble the original plaintext. -/
theorem padBlocks_reassemble (pt : List Nat) :
    ∃ q b, padBlocks pt = q ++ [b] ∧
      PKCS5Trimming b = some (b.take (BLOCK_SIZE - (BLOCK_SIZE - pt.length % BLOCK_SIZE))) ∧
      q.flatten ++ b.take (BLOCK_SIZE - (BLOCK_SIZE - pt.length % BLOCK_SIZE)) = pt := by
  set p := BLOCK_SIZE - pt.length % BLOCK_SIZE with hp
  have hp1 : 1 ≤ p := by simp only [hp, BLOCK_SIZE]; omega
  have hp16 : p ≤ BLOCK_SIZE := by simp only [hp, BLOCK_SIZE]; omega
  rcases List.eq_nil_or_concat (padBlocks pt) with hnil | ⟨q, b, hqb⟩
  · exact absurd hnil (padBlocks_ne_nil pt)
  rw [List.concat_eq_append] at hqb
  have hb16 : b.length = BLOCK_SIZE := padBlocks_mem_length pt b (by simp [hqb])
  have hflat : q.flatten ++ b = paddedBytes pt := by
    have := padBlocks_flatten pt
    rwa [hqb, List.flatten_append, List.flatten_cons, List.flatten_nil, List.append_nil] at this
  have hlastb : b.getLast? = some p := by
    have hbne : b ≠ [] := by
      intro h; rw [h] at hb16; simp [BLOCK_SIZE] at hb16
    have h1 : (paddedBytes pt).getLast? = some p := by
      simp only [paddedBytes, ← hp]
      have hrep : List.replicate p p = List.replicate (p - 1) p ++ [p] := by
        have h := List.replicate_succ' (p - 1) p
        rw [show p - 1 + 1 = p by omega] at h
        exact h
      rw [hrep, ← List.append_assoc, List.getLast?_append, List.getLast?_singleton]
      rfl
    rw [← hflat, List.getLast?_append] at h1
    cases h2 : b.getLast? with
    | none => exact absurd (List.getLast?_eq_none_iff.mp h2) hbne
    | some x => rw [h2] at h1; simpa using h1
  refine ⟨q, b, hqb, ?_, ?_⟩
  · simp only [PKCS5Trimming, hlastb]
    rw [if_pos (by omega), hb16]
  · have hp' : p = 16 - pt.length % 16 := hp
    have hb16' : b.length = 16 := hb16
    have hlenpad : (paddedBytes pt).length = pt.length + p := by
      simp [paddedBytes, ← hp]
    have hql : q.flatten.length + 16 = pt.length + p := by
      have h2 := congrArg List.length hflat
      simp only [List.length_append, hb16', hlenpad] at h2
      omega
    have hptlen : pt.length = q.flatten.length + (16 - p) := by omega
    have htake : pt = (paddedBytes pt).take pt.length := by
      simp [paddedBytes]
    rw [htake, ← hflat]
    conv_rhs => rw [hptlen]
    rw [List.take_append_eq_append_take]
    rw [List.take_of_length_le (by omega : q.flatten.length ≤ q.flatten.length + (16 - p))]
    congr 1
    rw [Nat.add_sub_cancel_left]
    rfl

theorem cbcEnc_length (enc : List Nat → List Nat) :
    ∀ (ps : List (List Nat)) (prev : List Nat), (cbcEnc enc prev ps).length = ps.length := by
  intro ps
  induction ps with
  | nil => intro prev; rfl
  | cons p ps ih => intro prev; simp [cbcEnc, ih]

theorem flatten_length_const (m : Nat) (l : List (List Nat))
    (h : ∀ c ∈ l, c.length = m) : l.flatten.length = m * l.length := by
  induction l with
  | nil => simp
  | cons c l ih =>
      simp only [List.flatten_cons, List.length_append, List.length_cons]
      rw [h c (by simp), ih (fun x hx => h x (by simp [hx]))]
      ring

theorem evpStream_md5_length (data salt : List Nat) (n : Nat) :
    ∀ prev, (evpStream md5 data salt 1 n prev).length = 16 * n := by
  induction n with
  | zero => intro prev; rfl
  | succ k ih =>
      intro prev
      simp only [evpStream, hashIter, List.length_append, md5_length, ih]
      ring

/-- The derived key has 32 bytes and the IV 16, for any password and salt. -/
theorem EVP_key_iv_length (salt pw : List Nat) :
    (EVP_BytesToKey (AES_KEY_LENGTH / BYTE_SIZE) BLOCK_SIZE md5 salt pw ITERATIONS).1.length = 32 ∧
    (EVP_BytesToKey (AES_KEY_LENGTH / BYTE_SIZE) BLOCK_SIZE md5 salt pw ITERATIONS).2.length = 16 := by
  constructor
  all_goals
    simp only [EVP_BytesToKey, AES_KEY_LENGTH, BYTE_SIZE, BLOCK_SIZE, ITERATIONS,
      List.length_take, List.length_drop, evpStream_md5_length]
  all_goals norm_num

/-- Running the deferred-padding decryptor over a CBC encryption of a
nonempty block sequence: nothing is written for the first block, then every
block is replayed with the last one trimmed. -/
theorem DecryptStreamToStream_cbc (enc dec : List Nat → List Nat)
    (hinv : ∀ bl, bl.length = BLOCK_SIZE → dec (enc bl) = bl)
    (hlen : ∀ bl, bl.length = BLOCK_SIZE → (enc bl).length = BLOCK_SIZE)
    (ps : List (List Nat)) (iv : List Nat)
    (hps : ∀ p ∈ ps, p.length = BLOCK_SIZE) (hiv : iv.length = BLOCK_SIZE)
    (hne : ps ≠ []) :
    DecryptStreamToStream dec iv (cbcEnc enc iv ps) false =
      ([] :: (expectedEvents ps).1, (expectedEvents ps).2) := by
  cases ps with
  | nil => exact absurd rfl hne
  | cons p ps' =>
      have hp : p.length = BLOCK_SIZE := hps p (by simp)
      have hxor : (xorBytes p iv).length = BLOCK_SIZE := by
        rw [xorBytes_length, hp, hiv]; simp
      have henc : (enc (xorBytes p iv)).length = BLOCK_SIZE := hlen _ hxor
      simp only [cbcEnc, DecryptStreamToStream, decryptLoop]
      rw [hinv _ hxor, xorBytes_cancel p iv (by rw [hp, hiv]),
        decryptLoop_cbc enc dec hinv hlen ps' _ p (fun x hx => hps x (by simp [hx])) henc]
      simp

/-- Decrypting a reference envelope with the matching password succeeds and
emits exactly the original plaintext: the shared core of the round-trip and
pipeline correctness theorems. -/
theorem decipher_envelope_ok (E D : List Nat → List Nat → List Nat)
    (hinv : ∀ k bl, bl.length = BLOCK_SIZE → D k (E k bl) = bl)
    (hlen : ∀ k bl, bl.length = BLOCK_SIZE → (E k bl).length = BLOCK_SIZE)
    (password salt pt : List Nat) (hsalt : salt.length = SALT_SIZE) :
    (DecipherOpensslReader D password (opensslEnvelope E password salt pt)).2 = none ∧
    (DecipherOpensslReader D password (opensslEnvelope E password salt pt)).1.flatten = pt := by
  obtain ⟨q, b, hqb, htrim, hre⟩ := padBlocks_reassemble pt
  have hsalt8 : salt.length = 8 := hsalt
  obtain ⟨hk32, hiv16⟩ := EVP_key_iv_length salt password
  set ki := EVP_BytesToKey (AES_KEY_LENGTH / BYTE_SIZE) BLOCK_SIZE md5 salt password ITERATIONS with hki
  set ct := (cbcEnc (E ki.1) ki.2 (padBlocks pt)).flatten with hct
  have henv : opensslEnvelope E password salt pt = SALT_STR_BYTES ++ salt ++ ct := rfl
  have hqmem : ∀ c ∈ padBlocks pt, c.length = BLOCK_SIZE := padBlocks_mem_length pt
  have hctmem : ∀ c ∈ cbcEnc (E ki.1) ki.2 (padBlocks pt), c.length = BLOCK_SIZE :=
    cbcEnc_mem_length (E ki.1) (hlen ki.1) (padBlocks pt) ki.2 hqmem hiv16
  have hctlen : ct.length = 16 * (padBlocks pt).length := by
    rw [hct, flatten_length_const 16 _ (fun c hc => hctmem c hc), cbcEnc_length]
  have hqpos : 1 ≤ (padBlocks pt).length := by
    cases h : padBlocks pt with
    | nil => exact absurd h (padBlocks_ne_nil pt)
    | cons x l => simp
  have henvlen : (opensslEnvelope E password salt pt).length = 16 + ct.length := by
    rw [henv]
    simp only [List.length_append, hsalt8, show SALT_STR_BYTES.length = 8 from rfl]
  have henvge : 32 ≤ (opensslEnvelope E password salt pt).length := by
    rw [henvlen, hctlen]; omega
  -- unfold the reader, discharging the header checks
  rw [DecipherOpensslReader]
  rw [if_neg (by omega)]
  have htk8 : (opensslEnvelope E password salt pt).take SALT_SIZE = SALT_STR_BYTES := by
    rw [henv, List.append_assoc]
    exact List.take_left' rfl
  have hrep0 : List.replicate (SALT_SIZE - (opensslEnvelope E password salt pt).length) 0 = ([] : List Nat) := by
    rw [show SALT_SIZE - (opensslEnvelope E password salt pt).length = 0 by
      simp only [SALT_SIZE]; omega]
    rfl
  rw [htk8, hrep0, List.append_nil, if_neg (by simp)]
  rw [if_neg (by simp only [SALT_SIZE]; omega)]
  have hdrop8 : (opensslEnvelope E password salt pt).drop SALT_SIZE = salt ++ ct := by
    rw [henv, List.append_assoc]
    have : SALT_SIZE = SALT_STR_BYTES.length := rfl
    rw [this, List.drop_left]
  have hsalttk : ((opensslEnvelope E password salt pt).drop SALT_SIZE).take SALT_SIZE = salt := by
    rw [hdrop8]
    exact List.take_left' hsalt
  have hrep0' : List.replicate (SALT_SIZE - ((opensslEnvelope E password salt pt).length - SALT_SIZE)) 0 = ([] : List Nat) := by
    rw [show SALT_SIZE - ((opensslEnvelope E password salt pt).length - SALT_SIZE) = 0 by
      simp only [SALT_SIZE]; omega]
    rfl
  rw [hsalttk, hrep0', List.append_nil]
  have hdrop16 : (opensslEnvelope E password salt pt).drop (2 * SALT_SIZE) = ct := by
    rw [henv]
    have : 2 * SALT_SIZE = (SALT_STR_BYTES ++ salt).length := by simp [hsalt8]; rfl
    rw [this, List.drop_left]
  rw [hdrop16]
  have hchunks : chunksOf (BLOCK_SIZE - 1) ct = cbcEnc (E ki.1) ki.2 (padBlocks pt) := by
    rw [hct]
    exact chunksOf_flatten _ _ (fun c hc => by rw [hctmem c hc]; rfl)
  rw [hchunks]
  rw [DecryptStreamToStream_cbc (E ki.1) (D ki.1) (hinv ki.1) (hlen ki.1)
    (padBlocks pt) ki.2 hqmem hiv16 (padBlocks_ne_nil pt)]
  rw [hqb, expectedEvents_concat q b _ htrim]
  constructor
  · rfl
  · simp only [List.flatten_cons, List.flatten_append, List.flatten_cons, List.flatten_nil]
    simpa using hre

end RoundTrip

section DeriveSpecEquality

theorem evpStream_succ (hash : List Nat → List Nat) (data salt : List Nat)
    (iter n : Nat) (prev : List Nat) :
    evpStream hash data salt iter (n+1) prev =
      hashIter hash iter (prev ++ data ++ salt) ++
        evpStream hash data salt iter n (hashIter hash iter (prev ++ data ++ salt)) := rfl

theorem deriveChainSpec_succ (pw salt : List Nat) (need fuel : Nat) (prev acc : List Nat) :
    deriveChainSpec pw salt need (fuel+1) prev acc =
      if need ≤ acc.length then acc
      else deriveChainSpec pw salt need fuel (md5 (prev ++ pw ++ salt))
        (acc ++ md5 (prev ++ pw ++ salt)) := rfl

theorem hashIter_one (x : List Nat) : hashIter md5 1 x = md5 x := rfl

/-- Splitting 48 = 16+16+16 bytes at 32, right-nested shape. -/
theorem take32_of_right_nested (d1 d2 d3 rest : List Nat)
    (h1 : d1.length = 16) (h2 : d2.length = 16) (h3 : d3.length = 16) :
    ((d1 ++ (d2 ++ (d3 ++ rest))).take 32 = d1 ++ d2) ∧
    (((d1 ++ (d2 ++ (d3 ++ rest))).drop 32).take 16 = d3) := by
  constructor
  · rw [List.take_append_eq_append_take, List.take_of_length_le (by omega), h1,
      List.take_append_eq_append_take, List.take_of_length_le (by omega), h2]
    norm_num
  · rw [List.drop_append_eq_append_drop, List.drop_of_length_le (by omega), h1,
      List.drop_append_eq_append_drop, List.drop_of_length_le (by omega), h2]
    norm_num
    rw [List.take_append_eq_append_take, List.take_of_length_le (le_of_eq h3), h3]
    norm_num

/-- Splitting 48 = 16+16+16 bytes at 32, left-nested shape. -/
theorem take32_of_left_nested (d1 d2 d3 : List Nat)
    (h1 : d1.length = 16) (h2 : d2.length = 16) (h3 : d3.length = 16) :
    ((d1 ++ d2) ++ d3).take 32 = d1 ++ d2 ∧
    ((((d1 ++ d2) ++ d3).drop 32).take 16 = d3) := by
  have h12 : (d1 ++ d2).length = 32 := by rw [List.length_append, h1, h2]
  constructor
  · rw [← h12]; exact List.take_left ..
  · rw [← h12, List.drop_left]; exact List.take_of_length_le (le_of_eq h3)

/-- The first three rounds of the overshooting digest stream. -/
theorem evpStream_three (password salt : List Nat) :
    evpStream md5 password salt 1 48 [] =
      md5 (password ++ salt) ++
      (md5 (md5 (password ++ salt) ++ password ++ salt) ++
       (md5 (md5 (md5 (password ++ salt) ++ password ++ salt) ++ password ++ salt) ++
        evpStream md5 password salt 1 45
          (md5 (md5 (md5 (password ++ salt) ++ password ++ salt) ++ password ++ salt)))) := by
  rw [show (48:Nat) = 47+1 from rfl, evpStream_succ, hashIter_one,
    show (47:Nat) = 46+1 from rfl, evpStream_succ, hashIter_one,
    show (46:Nat) = 45+1 from rfl, evpStream_succ, hashIter_one]
  simp only [List.nil_append]

/-- The spec's chain stops after exactly three digests (48 bytes). -/
theorem deriveChainSpec_three (password salt : List Nat) :
    deriveChainSpec password salt 48 48 [] [] =
      (md5 (password ++ salt) ++ md5 (md5 (password ++ salt) ++ password ++ salt)) ++
        md5 (md5 (md5 (password ++ salt) ++ password ++ salt) ++ password ++ salt) := by
  have h1 : (md5 (password ++ salt)).length = 16 := md5_length _
  have h2 : (md5 (md5 (password ++ salt) ++ password ++ salt)).length = 16 := md5_length _
  nth_rewrite 2 [show (48:Nat) = 47+1 from rfl]
  rw [deriveChainSpec_succ, if_neg (by simp)]
  simp only [List.nil_append]
  rw [show (47:Nat) = 46+1 from rfl, deriveChainSpec_succ,
    if_neg (by rw [h1]; omega)]
  rw [show (46:Nat) = 45+1 from rfl, deriveChainSpec_succ,
    if_neg (by rw [List.length_append, h1, h2]; omega)]
  rw [show (45:Nat) = 44+1 from rfl, deriveChainSpec_succ,
    if_pos (by
      rw [List.length_append, List.length_append, h1, h2, md5_length])]

/-- The derivation as the source calls it agrees with the derivation as the
spec words it: the overshooting digest stream and the stop-at-48-bytes
digest stream have the same first 32 and next 16 bytes. -/
theorem deriveKeyIv_eq_spec (password salt : List Nat) :
    deriveKeyIv password salt = deriveSpec password salt 32 16 := by
  have h1 : (md5 (password ++ salt)).length = 16 := md5_length _
  have h2 : (md5 (md5 (password ++ salt) ++ password ++ salt)).length = 16 := md5_length _
  have h3 : (md5 (md5 (md5 (password ++ salt) ++ password ++ salt) ++ password ++ salt)).length = 16 :=
    md5_length _
  have hkey : deriveKeyIv password salt =
      ((evpStream md5 password salt 1 48 []).take 32,
       ((evpStream md5 password salt 1 48 []).drop 32).take 16) := rfl
  have hspec : deriveSpec password salt 32 16 =
      ((deriveChainSpec password salt 48 48 [] []).take 32,
       ((deriveChainSpec password salt 48 48 [] []).drop 32).take 16) := rfl
  have L := take32_of_right_nested (md5 (password ++ salt))
    (md5 (md5 (password ++ salt) ++ password ++ salt))
    (md5 (md5 (md5 (password ++ salt) ++ password ++ salt) ++ password ++ salt))
    (evpStream md5 password salt 1 45
      (md5 (md5 (md5 (password ++ salt) ++ password ++ salt) ++ password ++ salt)))
    h1 h2 h3
  have R := take32_of_left_nested (md5 (password ++ salt))
    (md5 (md5 (password ++ salt) ++ password ++ salt))
    (md5 (md5 (md5 (password ++ salt) ++ password ++ salt) ++ password ++ salt))
    h1 h2 h3
  rw [hkey, hspec, evpStream_three, deriveChainSpec_three, L.1, L.2, R.1, R.2]

end DeriveSpecEquality

section StateTracker

/-- src/lib/state.go ProcessState (append-log variant): the in-memory set
of processed relative paths plus the flushed lines of the on-disk state
log (one relative path per line, in append order). -/
structure ProcessStateLog where
  ProcessedFiles : List String
  log : List String
deriving DecidableEq

/-- LoadState (src/lib/state.go lines 30-70): replays the state-log lines
into the in-memory set; a missing file is the empty line list. -/
def LoadStateLog (lines : List String) : ProcessStateLog :=
  { ProcessedFiles := lines, log := lines }

/-- MarkProcessed (src/lib/state.go lines 82-97): when the path is not yet
in the map it is added, one line is appended to the state log and the
writer is flushed before returning; an already-present path changes
nothing. -/
def MarkProcessedLog (ps : ProcessStateLog) (relPath : String) : ProcessStateLog :=
  if ps.ProcessedFiles.contains relPath then ps
  else { ProcessedFiles := relPath :: ps.ProcessedFiles, log := ps.log ++ [relPath] }

/-- part_001 ProcessState (JSON variant): only the in-memory map. -/
structure ProcessStateJson where
  ProcessedFiles : List String
deriving DecidableEq

/-- MarkProcessed (part_001 lines 82-87): sets the map entry and returns;
the method touches no file, so the on-disk state threads through
unchanged.  The pair makes that explicit. -/
def MarkProcessedJson (ps : ProcessStateJson) (disk : List String) (relPath : String) :
    ProcessStateJson × List String :=
  ({ ProcessedFiles := relPath :: ps.ProcessedFiles }, disk)

/-- SaveState (part_001 lines 51-70): serializes the whole in-memory map
and rewrites the state file with it, so the write grows with the total
number of processed paths. -/
def SaveStateJson (ps : ProcessStateJson) : List String := ps.ProcessedFiles

end StateTracker

section Pipeline

/-- A filesystem entry under the source root as the Discover stage sees
it: path relative to the source root (filepath.Rel recovers it from the
absolute path), content bytes, inode number, directory flag. -/
structure GoFile where
  relPath : String
  content : List Nat
  ino : Nat
  isDir : Bool
deriving DecidableEq

/-- sortFilesByInode (worker.go lines 171-199): walks the tree, keeps
non-directories, sorts ascending by inode (sort.Slice is unstable, so any
order consistent with the inode comparison refines it; mergeSort is one),
then -- reproducing the make-plus-append slip of lines 194-197 -- appends
the sorted paths to a slice that already holds len(files) empty strings. -/
def sortFilesByInode (entries : List GoFile) : List String :=
  let files := entries.filter (fun f => !f.isDir)
  let sorted := List.mergeSort files (fun a b => a.ino ≤ b.ino)
  List.replicate files.length "" ++ sorted.map (fun f => f.relPath)

/-- fileWriter's per-file write loop (worker.go lines 282-288): each chunk
is written with os.WriteFile, which truncates and rewrites the whole
destination file, so after the loop the destination holds only the last
chunk.  The accumulator is the current file content; none means the file
was never created. -/
def writeChunksGo : Option (List Nat) → List (List Nat) → Option (List Nat)
  | cur, [] => cur
  | _, c :: rest => writeChunksGo (some c) rest

/-- Per-file errors reported to the error channel. -/
inductive RunErr
  | openFail (path : String)
  | notEncrypted (path : String)
  | decryptFail (path : String)
deriving DecidableEq

/-- Observable outcome of one directory-pipeline run. -/
structure RunResult where
  openedPaths : List String
  startedPaths : List String
  dest : List (String × List Nat)
  processed : List String
  errs : List RunErr
deriving DecidableEq

/-- The empty outcome. -/
def rrEmpty : RunResult := ⟨[], [], [], [], []⟩

/-- Componentwise concatenation of run outcomes. -/
def rrAppend (a b : RunResult) : RunResult :=
  ⟨a.openedPaths ++ b.openedPaths, a.startedPaths ++ b.startedPaths,
   a.dest ++ b.dest, a.processed ++ b.processed, a.errs ++ b.errs⟩

/-- One enumerated path flowing through Discover (fileReader lines
208-221, readFile lines 138-168), Decrypt (dataDecryptor lines 240-268)
and Persist (fileWriter lines 271-304), composed sequentially: each
stage consumes one file's chunk sequence to its end, so the per-file
outcome of the concurrent pipeline is interleaving-independent.  The skip
check consults the state loaded at the start of the run (the reader stage
races ahead of the writer's marks).  The Stream-to-Chunk writer
(NewChannelBufferedWriter, code not under src/, modelled from spec section
4.2) coalesces the decryptor's writes into bufferSize-byte chunks with a
final partial chunk on close.  Write system calls succeed; the writer
marks the path processed whenever its own writes succeed, since the
closed chunk channel carries no signal of a Decrypt-stage error. -/
def pipelineStep (dfam : List Nat → List Nat → List Nat) (password : List Nat)
    (bufferSize : Nat) (files : List GoFile) (state0 : List String)
    (acc : RunResult) (path : String) : RunResult :=
  if state0.contains path then acc
  else
    match files.find? (fun f => f.relPath == path) with
    | none => { acc with errs := acc.errs ++ [.openFail path] }
    | some f =>
        let acc1 := { acc with openedPaths := acc.openedPaths ++ [path] }
        if IsOpensslEncrypted (f.content.take bufferSize) then
          let d := DecipherOpensslReader dfam password f.content
          let chunks := chunksOf (bufferSize - 1) d.1.flatten
          { acc1 with
            startedPaths := acc1.startedPaths ++ [path],
            dest :=
              match writeChunksGo none chunks with
              | some c => acc1.dest ++ [(path, c)]
              | none => acc1.dest,
            processed := acc1.processed ++ [path],
            errs := acc1.errs ++ (match d.2 with | some _ => [RunErr.decryptFail path] | none => []) }
        else { acc1 with errs := acc1.errs ++ [.notEncrypted path] }

/-- processDirectorySequential (worker.go lines 80-107): the three-stage
pipeline over the inode-sorted enumeration, starting from the loaded
processed set. -/
def runPipeline (dfam : List Nat → List Nat → List Nat) (password : List Nat)
    (bufferSize : Nat) (files : List GoFile) (state0 : List String) : RunResult :=
  (sortFilesByInode files).foldl (pipelineStep dfam password bufferSize files state0)
    { rrEmpty with processed := state0 }

end Pipeline

section PipelineLemmas

/-- The contribution of a single enumerated path, starting from the empty
accumulator. -/
def stepDelta (dfam : List Nat → List Nat → List Nat) (password : List Nat)
    (bufferSize : Nat) (files : List GoFile) (state0 : List String)
    (p : String) : RunResult :=
  pipelineStep dfam password bufferSize files state0 rrEmpty p

theorem rrAppend_rrEmpty (a : RunResult) : rrAppend a rrEmpty = a := by
  simp [rrAppend, rrEmpty]

theorem pipelineStep_eq_append (dfam : List Nat → List Nat → List Nat)
    (password : List Nat) (bufferSize : Nat) (files : List GoFile)
    (state0 : List String) (acc : RunResult) (p : String) :
    pipelineStep dfam password bufferSize files state0 acc p =
      rrAppend acc (stepDelta dfam password bufferSize files state0 p) := by
  by_cases h : p ∈ state0
  · simp [pipelineStep, stepDelta, h, rrAppend_rrEmpty]
  · cases hf : files.find? (fun f => f.relPath == p) with
    | none => simp [pipelineStep, stepDelta, h, hf, rrAppend, rrEmpty]
    | some f =>
        by_cases hm : IsOpensslEncrypted (f.content.take bufferSize)
        · cases hw : writeChunksGo none
            (chunksOf (bufferSize - 1) (DecipherOpensslReader dfam password f.content).1.flatten) with
          | none =>
              cases hd : (DecipherOpensslReader dfam password f.content).2 with
              | none => simp [pipelineStep, stepDelta, h, hf, hm, hw, hd, rrAppend, rrEmpty]
              | some e => simp [pipelineStep, stepDelta, h, hf, hm, hw, hd, rrAppend, rrEmpty]
          | some c =>
              cases hd : (DecipherOpensslReader dfam password f.content).2 with
              | none => simp [pipelineStep, stepDelta, h, hf, hm, hw, hd, rrAppend, rrEmpty]
              | some e => simp [pipelineStep, stepDelta, h, hf, hm, hw, hd, rrAppend, rrEmpty]
        · simp [pipelineStep, stepDelta, h, hf, hm, rrAppend, rrEmpty]

/-- Folding the pipeline accumulates the per-path contributions
componentwise. -/
theorem foldl_pipelineStep (dfam : List Nat → List Nat → List Nat)
    (password : List Nat) (bufferSize : Nat) (files : List GoFile)
    (state0 : List String) (paths : List String) (acc : RunResult) :
    paths.foldl (pipelineStep dfam password bufferSize files state0) acc =
      ⟨acc.openedPaths ++
         (paths.map (fun p => (stepDelta dfam password bufferSize files state0 p).openedPaths)).flatten,
       acc.startedPaths ++
         (paths.map (fun p => (stepDelta dfam password bufferSize files state0 p).startedPaths)).flatten,
       acc.dest ++
         (paths.map (fun p => (stepDelta dfam password bufferSize files state0 p).dest)).flatten,
       acc.processed ++
         (paths.map (fun p => (stepDelta dfam password bufferSize files state0 p).processed)).flatten,
       acc.errs ++
         (paths.map (fun p => (stepDelta dfam password bufferSize files state0 p).errs)).flatten⟩ := by
  induction paths generalizing acc with
  | nil => cases acc; simp
  | cons p ps ih =>
      rw [List.foldl_cons, pipelineStep_eq_append, ih]
      simp [rrAppend]

theorem stepDelta_skip (dfam : List Nat → List Nat → List Nat)
    (password : List Nat) (bufferSize : Nat) (files : List GoFile)
    (state0 : List String) (p : String) (h : p ∈ state0) :
    stepDelta dfam password bufferSize files state0 p = rrEmpty := by
  simp [stepDelta, pipelineStep, h]

theorem stepDelta_openFail (dfam : List Nat → List Nat → List Nat)
    (password : List Nat) (bufferSize : Nat) (files : List GoFile)
    (state0 : List String) (p : String) (h : p ∉ state0)
    (hf : files.find? (fun f => f.relPath == p) = none) :
    stepDelta dfam password bufferSize files state0 p =
      { rrEmpty with errs := [.openFail p] } := by
  simp [stepDelta, pipelineStep, h, hf, rrEmpty]

theorem stepDelta_notEncrypted (dfam : List Nat → List Nat → List Nat)
    (password : List Nat) (bufferSize : Nat) (files : List GoFile)
    (state0 : List String) (p : String) (f : GoFile)
    (h : p ∉ state0)
    (hf : files.find? (fun g => g.relPath == p) = some f)
    (hm : IsOpensslEncrypted (f.content.take bufferSize) = false) :
    stepDelta dfam password bufferSize files state0 p =
      { rrEmpty with openedPaths := [p], errs := [.notEncrypted p] } := by
  simp [stepDelta, pipelineStep, h, hf, hm, rrEmpty]

theorem stepDelta_started (dfam : List Nat → List Nat → List Nat)
    (password : List Nat) (bufferSize : Nat) (files : List GoFile)
    (state0 : List String) (p : String) (f : GoFile)
    (h : p ∉ state0)
    (hf : files.find? (fun g => g.relPath == p) = some f)
    (hm : IsOpensslEncrypted (f.content.take bufferSize) = true) :
    stepDelta dfam password bufferSize files state0 p =
      { openedPaths := [p], startedPaths := [p],
        dest :=
          match writeChunksGo none
            (chunksOf (bufferSize - 1) (DecipherOpensslReader dfam password f.content).1.flatten) with
          | some c => [(p, c)]
          | none => [],
        processed := [p],
        errs :=
          match (DecipherOpensslReader dfam password f.content).2 with
          | some _ => [RunErr.decryptFail p]
          | none => [] } := by
  cases hw : writeChunksGo none
      (chunksOf (bufferSize - 1) (DecipherOpensslReader dfam password f.content).1.flatten) with
  | none =>
      cases hd : (DecipherOpensslReader dfam password f.content).2 with
      | none => simp [stepDelta, pipelineStep, h, hf, hm, hw, hd, rrEmpty]
      | some e => simp [stepDelta, pipelineStep, h, hf, hm, hw, hd, rrEmpty]
  | some c =>
      cases hd : (DecipherOpensslReader dfam password f.content).2 with
      | none => simp [stepDelta, pipelineStep, h, hf, hm, hw, hd, rrEmpty]
      | some e => simp [stepDelta, pipelineStep, h, hf, hm, hw, hd, rrEmpty]

end PipelineLemmas

section ListHelpers

theorem find?_relPath_self (files : List GoFile) (f : GoFile)
    (hnodup : (files.map GoFile.relPath).Nodup) (hf : f ∈ files) :
    files.find? (fun g => g.relPath == f.relPath) = some f := by
  induction files with
  | nil => simp at hf
  | cons g rest ih =>
      rcases List.mem_cons.mp hf with hfg | hfr
      · subst hfg
        simp [List.find?]
      · have hne : g.relPath ≠ f.relPath := by
          intro he
          have : f.relPath ∈ rest.map GoFile.relPath := List.mem_map_of_mem _ hfr
          rw [← he] at this
          exact (List.nodup_cons.mp (by simpa using hnodup)).1 this
        have : (g.relPath == f.relPath) = false := by
          simpa using hne
        simp only [List.find?, this]
        exact ih (List.nodup_cons.mp (by simpa using hnodup)).2 hfr

theorem find?_relPath_none (files : List GoFile) (p : String)
    (h : ∀ f ∈ files, f.relPath ≠ p) :
    files.find? (fun g => g.relPath == p) = none := by
  induction files with
  | nil => rfl
  | cons g rest ih =>
      have : (g.relPath == p) = false := by simpa using h g (by simp)
      simp only [List.find?, this]
      exact ih (fun f hf => h f (by simp [hf]))

theorem lookup_eq_none_of_keys (l : List (String × List Nat)) (p : String)
    (h : ∀ e ∈ l, e.1 ≠ p) : List.lookup p l = none := by
  induction l with
  | nil => rfl
  | cons e rest ih =>
      have : (p == e.1) = false := by
        have := h e (by simp)
        simp [beq_iff_eq]
        exact fun he => this he.symm
      cases e with
      | mk k v =>
          simp only [List.lookup, this]
          exact ih (fun x hx => h x (by simp [hx]))

theorem flatten_map_ite (l : List String) (g : String → Bool) :
    (l.map (fun p => if g p then [p] else [])).flatten = l.filter g := by
  induction l with
  | nil => rfl
  | cons a l ih =>
      by_cases h : g a
      · simp [h, ih, List.filter_cons]
      · simp [h, ih, List.filter_cons]

theorem length_le_of_mem_chunksOf (m : Nat) (l : List Nat) :
    ∀ c ∈ chunksOf m l, c.length ≤ m + 1 := by
  suffices h : ∀ fuel (l : List Nat), l.length ≤ fuel →
      ∀ c ∈ chunksOfAux m fuel l, c.length ≤ m + 1 by
    exact h l.length l le_rfl
  intro fuel
  induction fuel with
  | zero =>
      intro l hl c hc
      have : l = [] := List.length_eq_zero.mp (Nat.le_zero.mp hl)
      subst this; simp [chunksOfAux] at hc
  | succ f ih =>
      intro l hl c hc
      cases l with
      | nil => simp [chunksOfAux] at hc
      | cons a l =>
          simp only [chunksOfAux] at hc
          rcases List.mem_cons.mp hc with hc | hc
          · rw [hc, List.length_take]
            omega
          · exact ih _ (by simp at hl ⊢; omega) c hc

theorem writeChunksGo_concat (l : List (List Nat)) (c : List Nat) :
    ∀ cur, writeChunksGo cur (l ++ [c]) = some c := by
  induction l with
  | nil => intro cur; rfl
  | cons x l ih => intro cur; simp only [List.cons_append, writeChunksGo]; exact ih _

theorem writeChunksGo_of_ne_nil (l : List (List Nat)) (h : l ≠ []) (cur : Option (List Nat)) :
    ∃ c ∈ l, writeChunksGo cur l = some c := by
  rcases List.eq_nil_or_concat l with hnil | ⟨l', c, hlc⟩
  · exact absurd hnil h
  rw [List.concat_eq_append] at hlc
  subst hlc
  exact ⟨c, by simp, writeChunksGo_concat l' c cur⟩

theorem mem_sortFilesByInode (files : List GoFile) (f : GoFile)
    (hf : f ∈ files) (hdir : f.isDir = false) :
    f.relPath ∈ sortFilesByInode files := by
  apply List.mem_append_right
  apply List.mem_map_of_mem
  rw [List.mem_mergeSort]
  rw [List.mem_filter]
  exact ⟨hf, by simp [hdir]⟩

end ListHelpers

section EnvelopeHelpers

theorem flatten_replicate_nil (n : Nat) : (List.replicate n ([] : List String)).flatten = [] := by
  induction n with
  | zero => rfl
  | succ k ih => simp [List.replicate_succ, ih]

/-- A reference envelope is at least 32 bytes: header plus one cipher
block. -/
theorem opensslEnvelope_length_ge (E : List Nat → List Nat → List Nat)
    (hlen : ∀ k bl, bl.length = BLOCK_SIZE → (E k bl).length = BLOCK_SIZE)
    (password salt pt : List Nat) (hsalt : salt.length = SALT_SIZE) :
    32 ≤ (opensslEnvelope E password salt pt).length := by
  obtain ⟨hk32, hiv16⟩ := EVP_key_iv_length salt password
  set ki := EVP_BytesToKey (AES_KEY_LENGTH / BYTE_SIZE) BLOCK_SIZE md5 salt password ITERATIONS with hki
  set ct := (cbcEnc (E ki.1) ki.2 (padBlocks pt)).flatten with hct
  have henv : opensslEnvelope E password salt pt = SALT_STR_BYTES ++ salt ++ ct := rfl
  have hctmem : ∀ c ∈ cbcEnc (E ki.1) ki.2 (padBlocks pt), c.length = BLOCK_SIZE :=
    cbcEnc_mem_length (E ki.1) (hlen ki.1) (padBlocks pt) ki.2 (padBlocks_mem_length pt) hiv16
  have hctlen : ct.length = 16 * (padBlocks pt).length := by
    rw [hct, flatten_length_const 16 _ (fun c hc => hctmem c hc), cbcEnc_length]
  have hqpos : 1 ≤ (padBlocks pt).length := by
    cases h : padBlocks pt with
    | nil => exact absurd h (padBlocks_ne_nil pt)
    | cons x l => simp
  rw [henv]
  simp only [List.length_append, hsalt, SALT_SIZE, show SALT_STR_BYTES.length = 8 from rfl]
  omega

/-- The readFile magic check passes on any reference envelope once the
first chunk is longer than the 16-byte header, which a bufferSize of at
least 17 guarantees. -/
theorem opensslEnvelope_isEncrypted (E : List Nat → List Nat → List Nat)
    (hlen : ∀ k bl, bl.length = BLOCK_SIZE → (E k bl).length = BLOCK_SIZE)
    (password salt pt : List Nat) (hsalt : salt.length = SALT_SIZE)
    (bufferSize : Nat) (hbs : 17 ≤ bufferSize) :
    IsOpensslEncrypted ((opensslEnvelope E password salt pt).take bufferSize) = true := by
  have hge := opensslEnvelope_length_ge E hlen password salt pt hsalt
  have hlen1 : ((opensslEnvelope E password salt pt).take bufferSize).length =
      min bufferSize (opensslEnvelope E password salt pt).length := List.length_take ..
  have htk8 : ((opensslEnvelope E password salt pt).take bufferSize).take SALT_SIZE =
      SALT_STR_BYTES := by
    rw [List.take_take]
    have : min SALT_SIZE bufferSize = SALT_SIZE := by
      simp only [SALT_SIZE]; omega
    rw [this]
    have henv : opensslEnvelope E password salt pt =
        SALT_STR_BYTES ++ (salt ++ (cbcEnc
          (E (EVP_BytesToKey (AES_KEY_LENGTH / BYTE_SIZE) BLOCK_SIZE md5 salt password ITERATIONS).1)
          (EVP_BytesToKey (AES_KEY_LENGTH / BYTE_SIZE) BLOCK_SIZE md5 salt password ITERATIONS).2
          (padBlocks pt)).flatten) := by
      rw [show opensslEnvelope E password salt pt = SALT_STR_BYTES ++ salt ++ _ from rfl,
        List.append_assoc]
    rw [henv]
    exact List.take_left' rfl
  rw [IsOpensslEncrypted, if_neg (by rw [hlen1]; simp only [SALT_SIZE]; omega), htk8]
  simp

/-- Every entry a single enumerated path contributes is keyed by that path,
and only paths outside the loaded set contribute at all. -/
theorem stepDelta_key_inv (dfam : List Nat → List Nat → List Nat)
    (password : List Nat) (bufferSize : Nat) (files : List GoFile)
    (state0 : List String) (q : String) :
    (∀ x ∈ (stepDelta dfam password bufferSize files state0 q).openedPaths, x = q ∧ q ∉ state0) ∧
    (∀ x ∈ (stepDelta dfam password bufferSize files state0 q).startedPaths, x = q ∧ q ∉ state0) ∧
    (∀ e ∈ (stepDelta dfam password bufferSize files state0 q).dest, e.1 = q ∧ q ∉ state0) ∧
    (∀ x ∈ (stepDelta dfam password bufferSize files state0 q).processed, x = q ∧ q ∉ state0) := by
  by_cases h : q ∈ state0
  · rw [stepDelta_skip dfam password bufferSize files state0 q h]
    simp [rrEmpty]
  · cases hf : files.find? (fun g => g.relPath == q) with
    | none =>
        rw [stepDelta_openFail dfam password bufferSize files state0 q h hf]
        simp [rrEmpty, h]
    | some f =>
        by_cases hm : IsOpensslEncrypted (f.content.take bufferSize)
        · rw [stepDelta_started dfam password bufferSize files state0 q f h hf hm]
          refine ⟨by simp [h], by simp [h], ?_, by simp [h]⟩
          cases hw : writeChunksGo none
              (chunksOf (bufferSize - 1) (DecipherOpensslReader dfam password f.content).1.flatten) with
          | none => simp [hw]
          | some c => simp [hw, h]
        · rw [stepDelta_notEncrypted dfam password bufferSize files state0 q f h
            (by simpa using hf) (by simpa using hm)]
          simp [rrEmpty, h]

end EnvelopeHelpers

section Claims

/-- C1: Round-trip -- for every plaintext (length 0, 1, 16 and beyond
included, since pt is universally quantified), building a reference
OpenSSL envelope (magic, salt, AES-256-CBC under the derived key/IV,
PKCS#5 padding) and decrypting it with DecipherOpensslReader under the
same password succeeds and emits exactly the original plaintext bytes in
order.  The block cipher is the abstract permutation pair (E, D) standing
for external crypto/aes, assumed mutually inverse and length-preserving
on 16-byte blocks. -/
theorem c1_roundtrip (E D : List Nat → List Nat → List Nat)
    (hinv : ∀ k bl, bl.length = BLOCK_SIZE → D k (E k bl) = bl)
    (hlen : ∀ k bl, bl.length = BLOCK_SIZE → (E k bl).length = BLOCK_SIZE)
    (password salt pt : List Nat) (hsalt : salt.length = SALT_SIZE) :
    (DecipherOpensslReader D password (opensslEnvelope E password salt pt)).2 = none ∧
    (DecipherOpensslReader D password (opensslEnvelope E password salt pt)).1.flatten = pt :=
  decipher_envelope_ok E D hinv hlen password salt pt hsalt

/-- Witness for C1 at the identity cipher, password [112], an 8-byte salt
and a 3-byte plaintext. -/
theorem c1_roundtrip_witness :
    (∀ k bl : List Nat, bl.length = BLOCK_SIZE → (fun (_ : List Nat) (b : List Nat) => b) k ((fun (_ : List Nat) (b : List Nat) => b) k bl) = bl) ∧
    (([1,2,3,4,5,6,7,8] : List Nat).length = SALT_SIZE) ∧
    (DecipherOpensslReader (fun _ b => b) [112]
      (opensslEnvelope (fun _ b => b) [112] [1,2,3,4,5,6,7,8] [10,20,30])).2 = none ∧
    (DecipherOpensslReader (fun _ b => b) [112]
      (opensslEnvelope (fun _ b => b) [112] [1,2,3,4,5,6,7,8] [10,20,30])).1.flatten = [10,20,30] :=
  ⟨fun _ _ _ => rfl, rfl,
   (c1_roundtrip (fun _ b => b) (fun _ b => b) (fun _ _ _ => rfl) (fun _ _ h => h)
     [112] [1,2,3,4,5,6,7,8] [10,20,30] rfl).1,
   (c1_roundtrip (fun _ b => b) (fun _ b => b) (fun _ _ _ => rfl) (fun _ _ h => h)
     [112] [1,2,3,4,5,6,7,8] [10,20,30] rfl).2⟩

/-- C9: key derivation as the source invokes it (EVP_BytesToKey with
keyLen 32 = AES_KEY_LENGTH/BYTE_SIZE, ivLen 16 = BLOCK_SIZE, MD5, 1
iteration) equals the spec's D_i = MD5(D_(i-1) || password || salt)
chain split at 32 bytes; it is a pure function, so repeated calls with
fixed inputs coincide, and the key is 32 bytes with a 16-byte IV. -/
theorem c9_derivation_matches_spec (password salt : List Nat) :
    deriveKeyIv password salt = deriveSpec password salt 32 16 ∧
    deriveKeyIv password salt = deriveKeyIv password salt ∧
    (deriveKeyIv password salt).1.length = 32 ∧
    (deriveKeyIv password salt).2.length = 16 :=
  ⟨deriveKeyIv_eq_spec password salt, rfl,
   (EVP_key_iv_length salt password).1, (EVP_key_iv_length salt password).2⟩

/-- C4 (code bug): PKCS5Trimming performs no padding validation.  At a
final decrypted block ending in 0 the decryptor returns success and
emits all 16 bytes instead of failing with a PaddingError; at a final
byte of 17 the Go slice expression panics (modelled as padPanic) instead
of returning an error.  A non-EOF read error is returned as an error
(that part of the claim holds), and an in-range padding byte 3 is
trimmed as the claim says. -/
theorem c4_padding_never_validated :
    (DecryptStreamToStream id (List.replicate 16 0) [] true = ([], some DecErr.readError)) ∧
    (DecryptStreamToStream id (List.replicate 16 0) [List.replicate 16 0] false =
      ([[], List.replicate 16 0], none)) ∧
    (DecryptStreamToStream id (List.replicate 16 0) [List.replicate 15 0 ++ [17]] false =
      ([[]], some DecErr.padPanic)) ∧
    (DecryptStreamToStream id (List.replicate 16 0) [List.replicate 15 0 ++ [3]] false =
      ([[], List.replicate 13 0], none)) := by decide

/-- C5 (code bug): on a one-block stream the src/lib/lib.go variant of
DecryptStreamToStream writes the 16 zero bytes of its never-filled
outBuffer during the very first read -- before any second cipher block
exists -- while the part_002 variant (with the first flag) writes
nothing at that point and only replays held blocks afterwards. -/
theorem c5_libgo_emits_before_second_block :
    (DecryptStreamToStreamLibgo id (List.replicate 16 0) [List.replicate 16 1] false).1 =
      [List.replicate 16 0, List.replicate 15 1] ∧
    (DecryptStreamToStream id (List.replicate 16 0) [List.replicate 16 1] false).1 =
      [[], List.replicate 15 1] := by decide

/-- C3 (code bug): the Persist stage writes each chunk with os.WriteFile,
which truncates, so a file arriving as chunks [1], [2] ends with content
[2], not the concatenation [1, 2]. -/
theorem c3_writefile_truncates_per_chunk :
    writeChunksGo none [[1],[2]] = some [2] ∧
    writeChunksGo none [[1],[2]] ≠ some ([[1],[2]] : List (List Nat)).flatten := by decide

/-- C10 (code bug): enumerating a directory holding the single file "a"
yields ["", "a"]: the make-plus-append slip prepends one empty-string
entry per real file, so the enumeration is not exactly the set of
non-directory files. -/
theorem c10_enumeration_has_empty_entries :
    sortFilesByInode [⟨"a", [], 5, false⟩] = ["", "a"] ∧
    sortFilesByInode [⟨"a", [], 5, false⟩] ≠ ["a"] := by
  have h : sortFilesByInode [⟨"a", [], 5, false⟩] = ["", "a"] := by
    simp [sortFilesByInode, List.mergeSort_singleton]
  exact ⟨h, by rw [h]; decide⟩

/-- C6 counterexample: the part_001 variant of MarkProcessed returns
having added the path to the in-memory set while the on-disk state is
untouched -- no entry was appended, let alone flushed, before return. -/
theorem c6_json_mark_processed_persists_nothing :
    (MarkProcessedJson ⟨[]⟩ [] "a").2 = [] ∧
    (MarkProcessedJson ⟨[]⟩ [] "a").1.ProcessedFiles = ["a"] :=
  ⟨rfl, rfl⟩

/-- C6 (amended): in the src/lib/state.go variant MarkProcessed leaves the
path a member of the in-memory set, appends exactly one log line (flushed
before return) when the path is new and none when it is already present,
and a repeated call changes nothing; in the part_001 variant MarkProcessed
only updates the in-memory set and the on-disk state is written separately
by SaveState, which rewrites the whole serialized set. -/
theorem c6_mark_processed_variants (ps : ProcessStateLog) (disk : List String)
    (js : ProcessStateJson) (relPath : String) :
    relPath ∈ (MarkProcessedLog ps relPath).ProcessedFiles ∧
    (MarkProcessedLog ps relPath).log =
      (if relPath ∈ ps.ProcessedFiles then ps.log else ps.log ++ [relPath]) ∧
    MarkProcessedLog (MarkProcessedLog ps relPath) relPath = MarkProcessedLog ps relPath ∧
    (MarkProcessedJson js disk relPath).2 = disk ∧
    relPath ∈ (MarkProcessedJson js disk relPath).1.ProcessedFiles ∧
    SaveStateJson (MarkProcessedJson js disk relPath).1 = relPath :: js.ProcessedFiles := by
  refine ⟨?_, ?_, ?_, rfl, by simp [MarkProcessedJson], rfl⟩
  · by_cases h : relPath ∈ ps.ProcessedFiles
    · simp [MarkProcessedLog, h]
    · simp [MarkProcessedLog, h]
  · by_cases h : relPath ∈ ps.ProcessedFiles
    · simp [MarkProcessedLog, h]
    · simp [MarkProcessedLog, h]
  · by_cases h : relPath ∈ ps.ProcessedFiles
    · simp [MarkProcessedLog, h]
    · simp [MarkProcessedLog, h]

/-- C8: a file whose first chunk fails the magic check is reported with a
not-encrypted error, is never handed to the Decrypt stage (so no
plaintext chunk is produced for it), gets no destination file, and every
other valid unprocessed file in the same run is still carried through to
completion: decrypted and marked processed. -/
theorem c8_non_magic_rejected (dfam : List Nat → List Nat → List Nat)
    (password : List Nat) (bufferSize : Nat) (files : List GoFile)
    (state0 : List String) (f : GoFile) (hf : f ∈ files)
    (hdir : f.isDir = false)
    (hbad : IsOpensslEncrypted (f.content.take bufferSize) = false)
    (hnodup : (files.map GoFile.relPath).Nodup)
    (hskip : f.relPath ∉ state0) :
    RunErr.notEncrypted f.relPath ∈ (runPipeline dfam password bufferSize files state0).errs ∧
    f.relPath ∉ (runPipeline dfam password bufferSize files state0).startedPaths ∧
    List.lookup f.relPath (runPipeline dfam password bufferSize files state0).dest = none ∧
    (∀ g ∈ files, g.isDir = false →
      IsOpensslEncrypted (g.content.take bufferSize) = true →
      g.relPath ∉ state0 →
      g.relPath ∈ (runPipeline dfam password bufferSize files state0).processed) := by
  have hfind : files.find? (fun g => g.relPath == f.relPath) = some f :=
    find?_relPath_self files f hnodup hf
  have hdelta : stepDelta dfam password bufferSize files state0 f.relPath =
      { rrEmpty with openedPaths := [f.relPath], errs := [.notEncrypted f.relPath] } :=
    stepDelta_notEncrypted dfam password bufferSize files state0 f.relPath f hskip hfind hbad
  have hmem : f.relPath ∈ sortFilesByInode files := mem_sortFilesByInode files f hf hdir
  have hrun : runPipeline dfam password bufferSize files state0 =
      ⟨((sortFilesByInode files).map
          (fun p => (stepDelta dfam password bufferSize files state0 p).openedPaths)).flatten,
       ((sortFilesByInode files).map
          (fun p => (stepDelta dfam password bufferSize files state0 p).startedPaths)).flatten,
       ((sortFilesByInode files).map
          (fun p => (stepDelta dfam password bufferSize files state0 p).dest)).flatten,
       state0 ++ ((sortFilesByInode files).map
          (fun p => (stepDelta dfam password bufferSize files state0 p).processed)).flatten,
       ((sortFilesByInode files).map
          (fun p => (stepDelta dfam password bufferSize files state0 p).errs)).flatten⟩ := by
    rw [runPipeline, foldl_pipelineStep]
    rfl
  refine ⟨?_, ?_, ?_, ?_⟩
  · rw [hrun]
    apply List.mem_flatten.mpr
    exact ⟨[RunErr.notEncrypted f.relPath],
      by
        apply List.mem_map.mpr
        exact ⟨f.relPath, hmem, by rw [hdelta]⟩,
      by simp⟩
  · rw [hrun]
    intro hcon
    obtain ⟨s, hs, hps⟩ := List.mem_flatten.mp hcon
    obtain ⟨q, hq, hsq⟩ := List.mem_map.mp hs
    rw [← hsq] at hps
    have hkey := (stepDelta_key_inv dfam password bufferSize files state0 q).2.1 _ hps
    rw [← hkey.1] at hps
    rw [hdelta] at hps
    simp [rrEmpty] at hps
  · rw [hrun]
    apply lookup_eq_none_of_keys
    intro e he
    obtain ⟨s, hs, hes⟩ := List.mem_flatten.mp he
    obtain ⟨q, hq, hsq⟩ := List.mem_map.mp hs
    rw [← hsq] at hes
    have hkey := (stepDelta_key_inv dfam password bufferSize files state0 q).2.2.1 _ hes
    intro hcon
    rw [hkey.1] at hcon
    rw [hcon] at hes
    rw [hdelta] at hes
    simp [rrEmpty] at hes
  · intro g hg hgdir hgmagic hgskip
    have hgfind : files.find? (fun x => x.relPath == g.relPath) = some g :=
      find?_relPath_self files g hnodup hg
    have hgdelta := stepDelta_started dfam password bufferSize files state0
      g.relPath g hgskip hgfind hgmagic
    have hgmem : g.relPath ∈ sortFilesByInode files := mem_sortFilesByInode files g hg hgdir
    rw [hrun]
    apply List.mem_append_right
    apply List.mem_flatten.mpr
    exact ⟨[g.relPath],
      by
        apply List.mem_map.mpr
        exact ⟨g.relPath, hgmem, by rw [hgdelta]⟩,
      by simp⟩

/-- C7: on a directory run over valid envelope files, every path already
in the loaded set is neither opened nor handed to the Decrypt stage and
its destination is never written; the files decrypted are exactly the
enumerated files not in the set, in enumeration order, and their count is
the file count minus the count of already-processed files. -/
theorem c7_resume_skips_processed (dfam : List Nat → List Nat → List Nat)
    (password : List Nat) (bufferSize : Nat) (files : List GoFile)
    (state0 : List String)
    (hdirs : ∀ f ∈ files, f.isDir = false)
    (hmagic : ∀ f ∈ files, IsOpensslEncrypted (f.content.take bufferSize) = true)
    (hnodup : (files.map GoFile.relPath).Nodup)
    (hne : ∀ f ∈ files, f.relPath ≠ "") :
    (∀ p ∈ state0,
      p ∉ (runPipeline dfam password bufferSize files state0).openedPaths ∧
      p ∉ (runPipeline dfam password bufferSize files state0).startedPaths ∧
      List.lookup p (runPipeline dfam password bufferSize files state0).dest = none) ∧
    (runPipeline dfam password bufferSize files state0).startedPaths =
      ((List.mergeSort files (fun a b => a.ino ≤ b.ino)).map GoFile.relPath).filter
        (fun p => decide (p ∉ state0)) ∧
    (runPipeline dfam password bufferSize files state0).startedPaths.length =
      files.length - (files.filter (fun g => decide (g.relPath ∈ state0))).length := by
  have hrun : runPipeline dfam password bufferSize files state0 =
      ⟨((sortFilesByInode files).map
          (fun p => (stepDelta dfam password bufferSize files state0 p).openedPaths)).flatten,
       ((sortFilesByInode files).map
          (fun p => (stepDelta dfam password bufferSize files state0 p).startedPaths)).flatten,
       ((sortFilesByInode files).map
          (fun p => (stepDelta dfam password bufferSize files state0 p).dest)).flatten,
       state0 ++ ((sortFilesByInode files).map
          (fun p => (stepDelta dfam password bufferSize files state0 p).processed)).flatten,
       ((sortFilesByInode files).map
          (fun p => (stepDelta dfam password bufferSize files state0 p).errs)).flatten⟩ := by
    rw [runPipeline, foldl_pipelineStep]
    rfl
  have hstarted : (runPipeline dfam password bufferSize files state0).startedPaths =
      ((List.mergeSort files (fun a b => a.ino ≤ b.ino)).map GoFile.relPath).filter
        (fun p => decide (p ∉ state0)) := by
    have hfilter : files.filter (fun f => !f.isDir) = files :=
      List.filter_eq_self.mpr (fun f hf => by simp [hdirs f hf])
    have hpaths : sortFilesByInode files =
        List.replicate files.length "" ++
          (List.mergeSort files (fun a b => a.ino ≤ b.ino)).map GoFile.relPath := by
      rw [sortFilesByInode]
      rw [hfilter]
    have hempty : (stepDelta dfam password bufferSize files state0 "").startedPaths = [] := by
      by_cases h : "" ∈ state0
      · rw [stepDelta_skip dfam password bufferSize files state0 "" h]
        rfl
      · rw [stepDelta_openFail dfam password bufferSize files state0 "" h
          (find?_relPath_none files "" (fun f hf => hne f hf))]
        rfl
    have hpoint : ∀ q ∈ (List.mergeSort files (fun a b => a.ino ≤ b.ino)).map GoFile.relPath,
        (stepDelta dfam password bufferSize files state0 q).startedPaths =
          if decide (q ∉ state0) then [q] else [] := by
      intro q hq
      obtain ⟨g, hg, hgq⟩ := List.mem_map.mp hq
      have hgfiles : g ∈ files := by
        rw [List.mem_mergeSort] at hg
        exact hg
      subst hgq
      by_cases h : g.relPath ∈ state0
      · rw [stepDelta_skip dfam password bufferSize files state0 _ h]
        simp [h, rrEmpty]
      · rw [stepDelta_started dfam password bufferSize files state0 _ g h
          (find?_relPath_self files g hnodup hgfiles) (hmagic g hgfiles)]
        simp [h]
    rw [hrun]
    show ((sortFilesByInode files).map
      (fun p => (stepDelta dfam password bufferSize files state0 p).startedPaths)).flatten = _
    rw [hpaths, List.map_append, List.flatten_append, List.map_replicate, hempty,
      flatten_replicate_nil, List.nil_append]
    rw [List.map_congr_left hpoint]
    exact flatten_map_ite _ _
  refine ⟨?_, hstarted, ?_⟩
  · intro p hp
    refine ⟨?_, ?_, ?_⟩
    · rw [hrun]
      intro hcon
      obtain ⟨s, hs, hps⟩ := List.mem_flatten.mp hcon
      obtain ⟨q, hq, hsq⟩ := List.mem_map.mp hs
      rw [← hsq] at hps
      have hkey := (stepDelta_key_inv dfam password bufferSize files state0 q).1 _ hps
      exact hkey.2 (hkey.1 ▸ hp)
    · rw [hrun]
      intro hcon
      obtain ⟨s, hs, hps⟩ := List.mem_flatten.mp hcon
      obtain ⟨q, hq, hsq⟩ := List.mem_map.mp hs
      rw [← hsq] at hps
      have hkey := (stepDelta_key_inv dfam password bufferSize files state0 q).2.1 _ hps
      exact hkey.2 (hkey.1 ▸ hp)
    · rw [hrun]
      apply lookup_eq_none_of_keys
      intro e he
      obtain ⟨s, hs, hes⟩ := List.mem_flatten.mp he
      obtain ⟨q, hq, hsq⟩ := List.mem_map.mp hs
      rw [← hsq] at hes
      have hkey := (stepDelta_key_inv dfam password bufferSize files state0 q).2.2.1 _ hes
      intro hcon
      exact hkey.2 (hkey.1 ▸ hcon ▸ hp)
  · rw [hstarted]
    have hmapfil :
        (((List.mergeSort files (fun a b => a.ino ≤ b.ino)).map GoFile.relPath).filter
          (fun p => decide (p ∉ state0))).length =
        ((List.mergeSort files (fun a b => a.ino ≤ b.ino)).filter
          (fun g => decide (g.relPath ∉ state0))).length := by
      rw [List.filter_map]
      rw [List.length_map]
      rfl
    rw [hmapfil]
    have hperm : ((List.mergeSort files (fun a b => a.ino ≤ b.ino)).filter
          (fun g => decide (g.relPath ∉ state0))).length =
        (files.filter (fun g => decide (g.relPath ∉ state0))).length :=
      ((List.mergeSort_perm files (fun a b => a.ino ≤ b.ino)).filter _).length_eq
    rw [hperm]
    have hsplit := List.length_eq_length_filter_add
      (l := files) (fun g => decide (g.relPath ∈ state0))
    have hnotnot : files.filter (fun x => !decide (x.relPath ∈ state0)) =
        files.filter (fun g => decide (g.relPath ∉ state0)) := by
      apply List.filter_congr
      intro x _
      simp
    rw [hnotnot] at hsplit
    omega

/-- C2 (code bug): a reachable directory-pipeline run over a single valid
envelope whose plaintext spans more than one output chunk marks the file
processed even though the destination file does not hold the plaintext:
fileWriter rewrites the destination with os.WriteFile per chunk and then
marks the path, and the closed chunk channel carries no Decrypt-stage
error signal, so membership in the processed set does not imply a
complete and correct destination file. -/
theorem c2_marked_processed_without_correct_dest (E D : List Nat → List Nat → List Nat)
    (hinv : ∀ k bl, bl.length = BLOCK_SIZE → D k (E k bl) = bl)
    (hlen : ∀ k bl, bl.length = BLOCK_SIZE → (E k bl).length = BLOCK_SIZE)
    (password salt pt : List Nat) (hsalt : salt.length = SALT_SIZE)
    (bufferSize : Nat) (hbs : 17 ≤ bufferSize) (hpt : bufferSize < pt.length) (ino : Nat) :
    (runPipeline D password bufferSize
        [⟨"a", opensslEnvelope E password salt pt, ino, false⟩] []).processed = ["a"] ∧
    List.lookup "a" (runPipeline D password bufferSize
        [⟨"a", opensslEnvelope E password salt pt, ino, false⟩] []).dest ≠ some pt := by
  have hbeq1 : (("a" : String) == "") = false := by decide
  have hbeq2 : (("a" : String) == "a") = true := by decide
  have hpaths : sortFilesByInode [(⟨"a", opensslEnvelope E password salt pt, ino, false⟩ : GoFile)] =
      ["", "a"] := by
    simp [sortFilesByInode, List.mergeSort_singleton]
  have hfindnil : ([(⟨"a", opensslEnvelope E password salt pt, ino, false⟩ : GoFile)]).find?
      (fun g => g.relPath == "") = none := by
    simp [List.find?, hbeq1]
  have hfind : ([(⟨"a", opensslEnvelope E password salt pt, ino, false⟩ : GoFile)]).find?
      (fun g => g.relPath == "a") =
      some ⟨"a", opensslEnvelope E password salt pt, ino, false⟩ := by
    simp [List.find?, hbeq2]
  have hmag := opensslEnvelope_isEncrypted E hlen password salt pt hsalt bufferSize hbs
  have hdelta0 : stepDelta D password bufferSize
      [⟨"a", opensslEnvelope E password salt pt, ino, false⟩] [] "" =
      { rrEmpty with errs := [.openFail ""] } :=
    stepDelta_openFail D password bufferSize _ [] "" (by simp) hfindnil
  have hdelta1 := stepDelta_started D password bufferSize
    [⟨"a", opensslEnvelope E password salt pt, ino, false⟩] [] "a"
    ⟨"a", opensslEnvelope E password salt pt, ino, false⟩ (by simp) hfind hmag
  have hd := decipher_envelope_ok E D hinv hlen password salt pt hsalt
  have hptne : pt ≠ [] := by
    intro h
    rw [h] at hpt
    simp at hpt
  obtain ⟨c0, hc0mem, hc0⟩ := writeChunksGo_of_ne_nil (chunksOf (bufferSize - 1) pt)
    (chunksOf_ne_nil _ _ hptne) none
  have hflat : (DecipherOpensslReader D password
      ((⟨"a", opensslEnvelope E password salt pt, ino, false⟩ : GoFile).content)).1.flatten = pt := hd.2
  have hdelta1' : stepDelta D password bufferSize
      [⟨"a", opensslEnvelope E password salt pt, ino, false⟩] [] "a" =
      { openedPaths := ["a"], startedPaths := ["a"], dest := [("a", c0)],
        processed := ["a"], errs := [] } := by
    rw [hdelta1]
    rw [show ((⟨"a", opensslEnvelope E password salt pt, ino, false⟩ : GoFile).content) =
      opensslEnvelope E password salt pt from rfl] at hflat ⊢
    rw [hflat, hc0, hd.1]
  have hrun : runPipeline D password bufferSize
      [⟨"a", opensslEnvelope E password salt pt, ino, false⟩] [] =
      rrAppend (rrAppend { rrEmpty with processed := ([] : List String) }
        (stepDelta D password bufferSize
          [⟨"a", opensslEnvelope E password salt pt, ino, false⟩] [] ""))
        (stepDelta D password bufferSize
          [⟨"a", opensslEnvelope E password salt pt, ino, false⟩] [] "a") := by
    rw [runPipeline, hpaths]
    simp only [List.foldl_cons, List.foldl_nil]
    rw [pipelineStep_eq_append, pipelineStep_eq_append]
  rw [hrun, hdelta0, hdelta1']
  constructor
  · simp [rrAppend, rrEmpty]
  · have hlook : List.lookup "a"
        (rrAppend (rrAppend { rrEmpty with processed := ([] : List String) }
          { rrEmpty with errs := [RunErr.openFail ""] })
          { openedPaths := ["a"], startedPaths := ["a"], dest := [("a", c0)],
            processed := ["a"], errs := ([] : List RunErr) }).dest = some c0 := by
      simp [rrAppend, rrEmpty, List.lookup]
    rw [hlook]
    intro hcon
    have hceq : c0 = pt := by
      injection hcon
    have hclen : c0.length ≤ bufferSize - 1 + 1 :=
      length_le_of_mem_chunksOf _ _ c0 hc0mem
    rw [hceq] at hclen
    omega

/-- C2 witness at the identity cipher, empty password, zero salt, an
18-byte plaintext and bufferSize 17. -/
theorem c2_witness :
    (17:Nat) ≤ 17 ∧ (17:Nat) < (List.range 18).length ∧
    (List.replicate 8 0 : List Nat).length = SALT_SIZE ∧
    (runPipeline (fun _ b => b) [] 17
      [⟨"a", opensslEnvelope (fun _ b => b) [] (List.replicate 8 0) (List.range 18), 0, false⟩]
      []).processed = ["a"] ∧
    List.lookup "a" (runPipeline (fun _ b => b) [] 17
      [⟨"a", opensslEnvelope (fun _ b => b) [] (List.replicate 8 0) (List.range 18), 0, false⟩]
      []).dest ≠ some (List.range 18) :=
  ⟨le_rfl, by decide, rfl,
   (c2_marked_processed_without_correct_dest (fun _ b => b) (fun _ b => b)
     (fun _ _ _ => rfl) (fun _ _ h => h) [] (List.replicate 8 0) (List.range 18) rfl
     17 le_rfl (by decide) 0).1,
   (c2_marked_processed_without_correct_dest (fun _ b => b) (fun _ b => b)
     (fun _ _ _ => rfl) (fun _ _ h => h) [] (List.replicate 8 0) (List.range 18) rfl
     17 le_rfl (by decide) 0).2⟩

/-- C8 witness: a two-file run where "b" lacks the magic and "a" is a
valid minimal envelope; "b" is rejected with an error and produces no
output while "a" is still processed. -/
theorem c8_witness :
    IsOpensslEncrypted (([1,2,3] : List Nat).take 33) = false ∧
    RunErr.notEncrypted "b" ∈ (runPipeline (fun _ b => b) [] 33
      [⟨"a", SALT_STR_BYTES ++ List.replicate 8 0 ++ List.replicate 16 0, 1, false⟩,
       ⟨"b", [1,2,3], 2, false⟩] []).errs ∧
    "b" ∉ (runPipeline (fun _ b => b) [] 33
      [⟨"a", SALT_STR_BYTES ++ List.replicate 8 0 ++ List.replicate 16 0, 1, false⟩,
       ⟨"b", [1,2,3], 2, false⟩] []).startedPaths ∧
    List.lookup "b" (runPipeline (fun _ b => b) [] 33
      [⟨"a", SALT_STR_BYTES ++ List.replicate 8 0 ++ List.replicate 16 0, 1, false⟩,
       ⟨"b", [1,2,3], 2, false⟩] []).dest = none ∧
    "a" ∈ (runPipeline (fun _ b => b) [] 33
      [⟨"a", SALT_STR_BYTES ++ List.replicate 8 0 ++ List.replicate 16 0, 1, false⟩,
       ⟨"b", [1,2,3], 2, false⟩] []).processed := by
  have h := c8_non_magic_rejected (fun _ b => b) [] 33
    [⟨"a", SALT_STR_BYTES ++ List.replicate 8 0 ++ List.replicate 16 0, 1, false⟩,
     ⟨"b", [1,2,3], 2, false⟩] [] ⟨"b", [1,2,3], 2, false⟩
    (by decide) rfl (by decide) (by decide) (by simp)
  exact ⟨by decide, h.1, h.2.1, h.2.2.1,
    h.2.2.2 ⟨"a", SALT_STR_BYTES ++ List.replicate 8 0 ++ List.replicate 16 0, 1, false⟩
      (by decide) rfl (by decide) (by simp)⟩

/-- C7 witness: a two-file run restarted with "a" already processed only
decrypts "b" and leaves "a" untouched. -/
theorem c7_witness :
    ("a" : String) ∈ ["a"] ∧
    "a" ∉ (runPipeline (fun _ b => b) [] 33
      [⟨"a", SALT_STR_BYTES ++ List.replicate 8 0 ++ List.replicate 16 0, 1, false⟩,
       ⟨"b", SALT_STR_BYTES ++ List.replicate 8 0 ++ List.replicate 16 0, 2, false⟩]
      ["a"]).openedPaths ∧
    "a" ∉ (runPipeline (fun _ b => b) [] 33
      [⟨"a", SALT_STR_BYTES ++ List.replicate 8 0 ++ List.replicate 16 0, 1, false⟩,
       ⟨"b", SALT_STR_BYTES ++ List.replicate 8 0 ++ List.replicate 16 0, 2, false⟩]
      ["a"]).startedPaths ∧
    List.lookup "a" (runPipeline (fun _ b => b) [] 33
      [⟨"a", SALT_STR_BYTES ++ List.replicate 8 0 ++ List.replicate 16 0, 1, false⟩,
       ⟨"b", SALT_STR_BYTES ++ List.replicate 8 0 ++ List.replicate 16 0, 2, false⟩]
      ["a"]).dest = none ∧
    (runPipeline (fun _ b => b) [] 33
      [⟨"a", SALT_STR_BYTES ++ List.replicate 8 0 ++ List.replicate 16 0, 1, false⟩,
       ⟨"b", SALT_STR_BYTES ++ List.replicate 8 0 ++ List.replicate 16 0, 2, false⟩]
      ["a"]).startedPaths.length =
      2 - ([(⟨"a", SALT_STR_BYTES ++ List.replicate 8 0 ++ List.replicate 16 0, 1, false⟩ : GoFile),
            ⟨"b", SALT_STR_BYTES ++ List.replicate 8 0 ++ List.replicate 16 0, 2, false⟩].filter
            (fun g => decide (g.relPath ∈ (["a"] : List String)))).length := by
  have h := c7_resume_skips_processed (fun _ b => b) [] 33
    [⟨"a", SALT_STR_BYTES ++ List.replicate 8 0 ++ List.replicate 16 0, 1, false⟩,
     ⟨"b", SALT_STR_BYTES ++ List.replicate 8 0 ++ List.replicate 16 0, 2, false⟩]
    ["a"] (by decide) (by decide) (by decide) (by decide)
  obtain ⟨ha, _, _⟩ := h.1 "a" (by simp)
  exact ⟨by simp, ha, (h.1 "a" (by simp)).2.1, (h.1 "a" (by simp)).2.2, h.2.2⟩

end Claims

end QnapDecrypt
